import Mathlib

/-!
Shallow embedding of the page-reconstruction core of `pdf_extractor.py`:
row grouping, gutter splitting, line building, column classification,
reading-order sequencing, boilerplate filtering and paragraph merging.

Python strings are modelled as `List Char`, page coordinates as `ℚ`.
-/

/-- Python strings, modelled as lists of characters. -/
abbrev Str := List Char

/-- Python's whitespace class (`\s`, `str.strip`), ASCII part:
space, tab, newline, carriage return, vertical tab, form feed. -/
def pySpace (c : Char) : Bool :=
  c = ' ' || c = '\t' || c = '\n' || c = '\r' || c = '\x0B' || c = '\x0C'

/-- Python `str.lstrip()`. -/
def lstrip (s : Str) : Str := s.dropWhile pySpace

/-- Python `str.rstrip()`. -/
def rstrip (s : Str) : Str := (s.reverse.dropWhile pySpace).reverse

/-- Python `str.strip()`. -/
def pstrip (s : Str) : Str := rstrip (lstrip s)

/-- Python `str.lower()` (ASCII). -/
def pyLower (s : Str) : Str := s.map Char.toLower

/-- `re.sub(r"\s+", " ", s)`: replace every whitespace run by one space.
The flag records whether the previous character was whitespace. -/
def collapseWs : Bool → Str → Str
  | _, [] => []
  | prevWs, c :: rest =>
    if pySpace c then
      if prevWs then collapseWs true rest
      else ' ' :: collapseWs true rest
    else c :: collapseWs false rest

/-- `norm_space` from the source: collapse whitespace runs to a single
space, then strip both ends. -/
def norm_space (s : Str) : Str := pstrip (collapseWs false s)

/-- Word characters for the regex word boundary `\b` (`[A-Za-z0-9_]`). -/
def isWordChar (c : Char) : Bool := c.isAlphanum || c = '_'

/-- `re.search(r"\b\d+\b", s)`: a digit run delimited on both sides by a
non-word character or the string end. The flag says whether the current
position is at a word boundary suitable to start the run. -/
def hasStandaloneInt (s : Str) : Bool := go true s
where
  go : Bool → Str → Bool
  | _, [] => false
  | atB, c :: rest =>
    (atB && c.isDigit &&
      (match rest.dropWhile Char.isDigit with
       | [] => true
       | d :: _ => !isWordChar d)) ||
    go (!isWordChar c) rest

/-- `re.fullmatch(r"\d+", s)`. -/
def isAllDigits (s : Str) : Bool := !s.isEmpty && s.all Char.isDigit

/-- Python `pat in s` (substring containment). -/
def containsSub (pat s : Str) : Bool := s.tails.any (fun t => List.isPrefixOf pat t)

/-- `is_likely_header_footer` from the source. -/
def is_likely_header_footer (line : Str) : Bool :=
  let s := pyLower (norm_space line)
  if isAllDigits s then true
  else if (containsSub ("future of jobs report".data) s) && hasStandaloneInt s then true
  else if (List.isPrefixOf ("january 2025".data) s) &&
          (containsSub ("future of jobs report".data) s) then true
  else false

/-- `merge_hyphenation` from the source: if `prev` ends with a hyphen and
`nxt` is nonempty with a lowercase first character, drop the hyphen and
report a merge. -/
def merge_hyphenation (prev nxt : Str) : Str × Str × Bool :=
  if (prev.getLast? == some '-') && (match nxt with | [] => false | c :: _ => c.isLower) then
    (prev.dropLast, nxt, true)
  else (prev, nxt, false)

/-- `re.match(r"^(•|-|–|\*|\d+\.)\s+", s)`: a bullet or list marker
followed by at least one whitespace character. -/
def bulletStart (s : Str) : Bool :=
  match s with
  | [] => false
  | c :: rest =>
    if c = '•' || c = '-' || c = '–' || c = '*' then
      match rest with
      | [] => false
      | d :: _ => pySpace d
    else if c.isDigit then
      match rest.dropWhile Char.isDigit with
      | '.' :: d :: _ => pySpace d
      | _ => false
    else false

/-- `re.match(r"^[A-Z][A-Z\s]{3,}$", s)`: an uppercase letter followed by
at least three characters that are uppercase letters or whitespace,
spanning the whole string. -/
def headingLike (s : Str) : Bool :=
  match s with
  | [] => false
  | c :: rest =>
    c.isUpper && decide (3 ≤ rest.length) && rest.all (fun d => d.isUpper || pySpace d)

/-- After a caption word: `\s+\d`, one or more whitespace characters and
then a digit. -/
def wsThenDigit (t : Str) : Bool :=
  match t with
  | [] => false
  | c :: rest =>
    pySpace c &&
      (match rest.dropWhile pySpace with
       | [] => false
       | d :: _ => d.isDigit)

/-- One alternative of `^(figure|table|box)\s+\d`. -/
def matchCaptionWord (w t : Str) : Bool :=
  (List.isPrefixOf w t) && wsThenDigit (t.drop w.length)

/-- `re.match(r"^(figure|table|box)\s+\d", s)` (applied to a lowercased
string in the source). -/
def captionStart (s : Str) : Bool :=
  matchCaptionWord ("figure".data) s || matchCaptionWord ("table".data) s ||
    matchCaptionWord ("box".data) s

/-- Python `s.endswith((".", "!", "?", ":"))`. -/
def endsTerminal (s : Str) : Bool :=
  s.getLast? == some '.' || s.getLast? == some '!' ||
    s.getLast? == some '?' || s.getLast? == some ':'

/-- `should_join_with_space` from the source. -/
def should_join_with_space (prev nxt : Str) : Bool :=
  let prev_s := rstrip prev
  let nxt_s := lstrip nxt
  if prev_s.isEmpty then false
  else if bulletStart nxt_s then false
  else if headingLike nxt_s then false
  else if captionStart (pyLower nxt_s) then false
  else if endsTerminal prev_s then false
  else true

/-- A word token with its bounding box, as supplied by the token source. -/
structure Token where
  text : Str
  x0 : ℚ
  x1 : ℚ
  top : ℚ
  bottom : ℚ
deriving DecidableEq

/-- The `kind` field of a `Line` (`"single"` is the placeholder set by the
constructor before classification). -/
inductive Kind where
  | single
  | full
  | left
  | right
deriving DecidableEq

/-- The `Line` class from the source. -/
structure Line where
  y : ℚ
  x0 : ℚ
  x1 : ℚ
  text : Str
  kind : Kind
deriving DecidableEq

/-- Loop of `split_by_gutter_gap`: `prev` is the token appended most
recently (`current[-1]`), `accRev` the rest of the current segment in
reverse. -/
def splitGo (g : ℚ) (prev : Token) (accRev : List Token) : List Token → List (List Token)
  | [] => [(prev :: accRev).reverse]
  | w :: ws =>
    if g ≤ w.x0 - prev.x1 then (prev :: accRev).reverse :: splitGo g w [] ws
    else splitGo g w (prev :: accRev) ws

/-- `split_by_gutter_gap` from the source: split a row into segments at
every horizontal gap of at least `min_gap`. -/
def split_by_gutter_gap (words_in_row : List Token) (min_gap : ℚ) : List (List Token) :=
  match words_in_row with
  | [] => []
  | w :: ws => splitGo min_gap w [] ws

/-- The sort key `(top, x0)` of `words_to_lines`, as a boolean total
preorder for the stable sort. -/
def tokenLE (a b : Token) : Bool :=
  decide (a.top < b.top ∨ (a.top = b.top ∧ a.x0 ≤ b.x0))

/-- `sorted(words, key=lambda w: (w["top"], w["x0"]))` (Python sorts are
stable). -/
def sortByTopX0 (ws : List Token) : List Token := ws.mergeSort tokenLE

/-- The sort key `x0` used on each row. -/
def tokenLEx (a b : Token) : Bool := decide (a.x0 ≤ b.x0)

/-- `sorted(row, key=lambda w: w["x0"])`. -/
def sortByX0 (ws : List Token) : List Token := ws.mergeSort tokenLEx

/-- Row-grouping loop of `words_to_lines`: `current_y` is the anchor `top`
of the open row, `cur` the open row so far. -/
def groupRowsGo (y_tol : ℚ) : ℚ → List Token → List Token → List (List Token)
  | _, cur, [] => if cur.isEmpty then [] else [cur]
  | current_y, cur, w :: ws =>
    if |w.top - current_y| ≤ y_tol then groupRowsGo y_tol current_y (cur ++ [w]) ws
    else cur :: groupRowsGo y_tol w.top [w] ws

/-- Group sorted tokens into rows by the `y_tol` tolerance against the
anchor of the open row (first token's `top`). -/
def groupRows (y_tol : ℚ) (ws : List Token) : List (List Token) :=
  match ws with
  | [] => []
  | w :: _ => groupRowsGo y_tol w.top [] ws

/-- Minimum of a list of rationals (rows and segments are never empty in
the pipeline, so the default is never used there). -/
def minQ : List ℚ → ℚ
  | [] => 0
  | x :: xs => xs.foldl min x

/-- Maximum of a list of rationals. -/
def maxQ : List ℚ → ℚ
  | [] => 0
  | x :: xs => xs.foldl max x

/-- Build one `Line` from a segment: bounding box from min/max over the
tokens, text the whitespace-normalized space-join of the token texts. -/
def buildLine (seg : List Token) : Line :=
  { y := minQ (seg.map Token.top)
  , x0 := minQ (seg.map Token.x0)
  , x1 := maxQ (seg.map Token.x1)
  , text := norm_space (List.intercalate ([' ']) (seg.map Token.text))
  , kind := Kind.single }

/-- The token-level part of `words_to_lines`: sort by `(top, x0)`, group
into rows, sort each row by `x0` and split it at gutter gaps (the source
fixes `min_gap = 25.0`). Each resulting segment yields one `Line`. -/
def pageSegments (words : List Token) (y_tol : ℚ) : List (List Token) :=
  if words.isEmpty then []
  else
    ((groupRows y_tol (sortByTopX0 words)).map
      (fun row => split_by_gutter_gap (sortByX0 row) 25)).flatten

/-- `words_to_lines` from the source. -/
def words_to_lines (words : List Token) (y_tol : ℚ) : List Line :=
  (pageSegments words y_tol).map buildLine

/-- Loop body of `classify_columns`. -/
def classifyLine (mid : ℚ) (ln : Line) : Line :=
  if ln.x0 < mid ∧ mid < ln.x1 then { ln with kind := Kind.full }
  else if ln.x1 ≤ mid then { ln with kind := Kind.left }
  else { ln with kind := Kind.right }

/-- `classify_columns` from the source (`mid = page_width * gutter ratio`). -/
def classify_columns (lines : List Line) (page_width : ℚ) (gr : ℚ) : List Line :=
  let mid := page_width * gr
  lines.map (classifyLine mid)

/-- The sort key `y` of the reading-order sequencer. -/
def lineYle (a b : Line) : Bool := decide (a.y ≤ b.y)

/-- The reading-order sequencer from `reconstruct_page_text`: full-width
lines by `y`, then the left column by `y`, then the right column by `y`;
each bucket sorted stably. -/
def sequenceLines (lines : List Line) : List Line :=
  (List.mergeSort (lines.filter (fun ln => ln.kind == Kind.full)) lineYle)
    ++ (List.mergeSort (lines.filter (fun ln => ln.kind == Kind.left)) lineYle)
    ++ (List.mergeSort (lines.filter (fun ln => ln.kind == Kind.right)) lineYle)

/-- The filtering loop of `reconstruct_page_text`: drop empty lines, and
drop likely header/footer lines when the flag is enabled. -/
def filterLines (drop_headers_footers : Bool) : List Line → List Str
  | [] => []
  | ln :: rest =>
    if ln.text.isEmpty then filterLines drop_headers_footers rest
    else if drop_headers_footers && is_likely_header_footer ln.text then
      filterLines drop_headers_footers rest
    else ln.text :: filterLines drop_headers_footers rest

/-- One iteration of the paragraph-merging loop, with the output list held
in reverse so its head is `out_lines[-1]`. -/
def mergeStepRev (out : List Str) (cur : Str) : List Str :=
  match out with
  | [] => [cur]
  | prev :: rest =>
    let m := merge_hyphenation prev cur
    if m.2.2 then (m.1 ++ m.2.1) :: rest
    else if should_join_with_space prev cur then
      (rstrip prev ++ ' ' :: lstrip cur) :: rest
    else cur :: prev :: rest

/-- The paragraph-merging loop of `reconstruct_page_text`. -/
def mergeParagraphs (filtered : List Str) : List Str :=
  (filtered.foldl mergeStepRev []).reverse

/-- The page record returned by `reconstruct_page_text`. -/
structure PageRecord where
  page_number : ℕ
  width : ℚ
  height : ℚ
  text : Str
  line_count : ℕ
deriving DecidableEq

/-- `reconstruct_page_text` from the source, over the page's tokens as
supplied by the token source (the crop only restricts which tokens are
supplied; the gutter ratio is fixed to `0.5`). -/
def reconstruct_page_text (page_number : ℕ) (width height : ℚ)
    (words : List Token) (y_tol : ℚ) (drop_headers_footers : Bool) : PageRecord :=
  let lines := words_to_lines words y_tol
  let classified := classify_columns lines width (1 / 2)
  let ordered := sequenceLines classified
  let filtered := filterLines drop_headers_footers ordered
  let out_lines := mergeParagraphs filtered
  { page_number := page_number
  , width := width
  , height := height
  , text := pstrip (List.intercalate (['\n']) out_lines)
  , line_count := out_lines.length }

/-- One page of input to the document extractor. -/
structure PageInput where
  page_number : ℕ
  width : ℚ
  height : ℚ
  words : List Token

/-- The per-page loop of `extract_pdf`: process the first
`min(total, max_pages)` pages in order; each page's record is produced
(and written) before the next page is touched. The source performs no
configuration validation before this loop. -/
def extractPages (pages : List PageInput) (max_pages : Option ℕ) (y_tol : ℚ)
    (drop_headers_footers : Bool) : List PageRecord :=
  let total := pages.length
  let n := match max_pages with
           | some m => min total m
           | none => total
  (pages.take n).map
    (fun p => reconstruct_page_text p.page_number p.width p.height p.words y_tol drop_headers_footers)

/-- Rank of a kind bucket in sequencer output. -/
def kindRank : Kind → ℕ
  | Kind.full => 0
  | Kind.left => 1
  | Kind.right => 2
  | Kind.single => 3

/-! ### Lemmas about the gutter splitter -/

theorem splitGo_flatten (g : ℚ) (ws : List Token) : ∀ (prev : Token) (accRev : List Token),
    (splitGo g prev accRev ws).flatten = (prev :: accRev).reverse ++ ws := by
  induction ws with
  | nil => intro prev accRev; simp [splitGo]
  | cons w ws ih =>
    intro prev accRev
    simp only [splitGo]
    split
    · simp [ih]
    · simp [ih]

theorem split_by_gutter_gap_flatten (ws : List Token) (g : ℚ) :
    (split_by_gutter_gap ws g).flatten = ws := by
  cases ws with
  | nil => rfl
  | cons w ws => simp [split_by_gutter_gap, splitGo_flatten]

theorem splitGo_ne_nil (g : ℚ) (ws : List Token) : ∀ (prev : Token) (accRev : List Token),
    ∀ seg ∈ splitGo g prev accRev ws, seg ≠ [] := by
  induction ws with
  | nil =>
    intro prev accRev seg hseg
    simp [splitGo] at hseg
    simp [hseg]
  | cons w ws ih =>
    intro prev accRev seg hseg
    simp only [splitGo] at hseg
    split at hseg
    · rcases List.mem_cons.mp hseg with h | h
      · simp [h]
      · exact ih w [] seg h
    · exact ih w (prev :: accRev) seg hseg

theorem splitGo_chain_in (g : ℚ) (ws : List Token) : ∀ (prev : Token) (accRev : List Token),
    List.Chain' (fun a b => b.x0 - a.x1 < g) ((prev :: accRev).reverse) →
    ∀ seg ∈ splitGo g prev accRev ws, List.Chain' (fun a b => b.x0 - a.x1 < g) seg := by
  induction ws with
  | nil =>
    intro prev accRev hch seg hseg
    simp [splitGo] at hseg
    simpa [hseg] using hch
  | cons w ws ih =>
    intro prev accRev hch seg hseg
    simp only [splitGo] at hseg
    split at hseg
    · rcases List.mem_cons.mp hseg with h | h
      · simpa [h] using hch
      · exact ih w [] (by simp) seg h
    · refine ih w (prev :: accRev) ?_ seg hseg
      rename_i hgap
      have : (w :: prev :: accRev).reverse = (prev :: accRev).reverse ++ [w] := by simp
      rw [this]
      refine List.Chain'.append hch (by simp) ?_
      intro x hx y hy
      simp [List.getLast?_reverse] at hx
      simp at hy
      subst hx; subst hy
      exact lt_of_not_le hgap

theorem splitGo_firstSeg (g : ℚ) (ws : List Token) : ∀ (prev : Token) (accRev : List Token),
    ∃ ext rest, splitGo g prev accRev ws = ((prev :: accRev).reverse ++ ext) :: rest := by
  induction ws with
  | nil =>
    intro prev accRev
    exact ⟨[], [], by simp [splitGo]⟩
  | cons w ws ih =>
    intro prev accRev
    simp only [splitGo]
    split
    · exact ⟨[], splitGo g w [] ws, by simp⟩
    · obtain ⟨ext, rest, hr⟩ := ih w (prev :: accRev)
      refine ⟨w :: ext, rest, ?_⟩
      rw [hr]
      simp

theorem splitGo_chain_between (g : ℚ) (ws : List Token) : ∀ (prev : Token) (accRev : List Token),
    List.Chain' (fun s t => ∀ a ∈ s.getLast?, ∀ b ∈ t.head?, g ≤ b.x0 - a.x1)
      (splitGo g prev accRev ws) := by
  induction ws with
  | nil => intro prev accRev; simp [splitGo]
  | cons w ws ih =>
    intro prev accRev
    simp only [splitGo]
    split
    · rename_i hgap
      rw [List.chain'_cons']
      refine ⟨?_, ih w []⟩
      intro y hy
      obtain ⟨ext, rest, hr⟩ := splitGo_firstSeg g ws w []
      rw [hr] at hy
      simp at hy
      subst hy
      intro a ha b hb
      simp [List.getLast?_reverse] at ha
      simp at hb
      subst ha; subst hb
      exact hgap
    · exact ih w (prev :: accRev)

/-- A token for the concrete gutter-split scenario (`x0 ∈ {10,40,200,230}`,
width 10). -/
def mkTok (a b : ℚ) : Token := { text := "w".data, x0 := a, x1 := b, top := 0, bottom := 1 }

/-- C4: a new segment starts exactly when `token.x0 - previous_token.x1 ≥ min_gap`:
the segments concatenate back to the row, adjacent tokens inside a segment have
gap `< min_gap`, the gap across every segment boundary is `≥ min_gap`, and the
row with tokens at `x0 ∈ {10, 40, 200, 230}` and `min_gap = 25` yields exactly
the two segments `{10, 40}` and `{200, 230}`. -/
theorem gutter_split_spec (ws : List Token) (g : ℚ) :
    (split_by_gutter_gap ws g).flatten = ws
    ∧ (∀ seg ∈ split_by_gutter_gap ws g,
        seg ≠ [] ∧ List.Chain' (fun a b => b.x0 - a.x1 < g) seg)
    ∧ List.Chain' (fun s t => ∀ a ∈ s.getLast?, ∀ b ∈ t.head?, g ≤ b.x0 - a.x1)
        (split_by_gutter_gap ws g)
    ∧ split_by_gutter_gap [mkTok 10 20, mkTok 40 50, mkTok 200 210, mkTok 230 240] 25
        = [[mkTok 10 20, mkTok 40 50], [mkTok 200 210, mkTok 230 240]] := by
  refine ⟨split_by_gutter_gap_flatten ws g, ?_, ?_,
    by norm_num [split_by_gutter_gap, splitGo, mkTok]⟩
  · intro seg hseg
    cases ws with
    | nil => simp [split_by_gutter_gap] at hseg
    | cons w ws =>
      simp only [split_by_gutter_gap] at hseg
      exact ⟨splitGo_ne_nil g ws w [] seg hseg,
             splitGo_chain_in g ws w [] (by simp) seg hseg⟩
  · cases ws with
    | nil => simp [split_by_gutter_gap]
    | cons w ws =>
      simpa only [split_by_gutter_gap] using splitGo_chain_between g ws w []

/-- C2: the column classifier maps each line to the same line with
`kind = Full` iff `x0 < mid < x1` strictly (with `mid = width * ratio`),
otherwise `Left` iff `x1 ≤ mid`, else `Right`; it preserves order and all
other fields, and the concrete full-width scenario holds. -/
theorem classify_columns_spec (lines : List Line) (w r : ℚ) :
    classify_columns lines w r
      = lines.map (fun ln =>
          { ln with kind :=
              if ln.x0 < w * r ∧ w * r < ln.x1 then Kind.full
              else if ln.x1 ≤ w * r then Kind.left
              else Kind.right })
    ∧ (∀ ln : Line,
        ((classifyLine (w * r) ln).kind = Kind.full ↔ (ln.x0 < w * r ∧ w * r < ln.x1))
        ∧ (classifyLine (w * r) ln).y = ln.y
        ∧ (classifyLine (w * r) ln).x0 = ln.x0
        ∧ (classifyLine (w * r) ln).x1 = ln.x1
        ∧ (classifyLine (w * r) ln).text = ln.text)
    ∧ classify_columns [{ y := 0, x0 := 100, x1 := 500, text := [], kind := Kind.single }] 600 (1 / 2)
        = [{ y := 0, x0 := 100, x1 := 500, text := [], kind := Kind.full }] := by
  refine ⟨?_, ?_, by norm_num [classify_columns, classifyLine]⟩
  · unfold classify_columns
    apply List.map_congr_left
    intro ln _
    unfold classifyLine
    split_ifs <;> rfl
  · intro ln
    unfold classifyLine
    split_ifs with h1 h2 <;> simp_all

/-- The record produced for a page without tokens. -/
theorem reconstruct_empty_aux (pn : ℕ) (w h y_tol : ℚ) (drop : Bool) :
    reconstruct_page_text pn w h [] y_tol drop
      = { page_number := pn, width := w, height := h, text := [], line_count := 0 } := by
  simp [reconstruct_page_text, words_to_lines, pageSegments, classify_columns,
        sequenceLines, filterLines, mergeParagraphs, List.intercalate, pstrip,
        lstrip, rstrip]

/-- C8: a page yielding zero tokens produces, without failure, a record
with empty text and `line_count = 0`, and with the page's width, height
and page number unchanged. -/
theorem empty_page_condition (pn : ℕ) (w h y_tol : ℚ) (drop : Bool) :
    reconstruct_page_text pn w h [] y_tol drop
      = { page_number := pn, width := w, height := h, text := [], line_count := 0 } :=
  reconstruct_empty_aux pn w h y_tol drop

/-- C5: when the previous output line ends with a hyphen and the next line
is nonempty with a lowercase first character, the merger concatenates them
with the hyphen dropped and no space, consuming the next line without
appending a new output line; the concrete hyphenation scenario holds. -/
theorem hyphenation_merge_spec (prev cur : Str) (rest : List Str)
    (h1 : prev.getLast? = some '-')
    (h2 : ∃ c cs, cur = c :: cs ∧ c.isLower = true) :
    merge_hyphenation prev cur = (prev.dropLast, cur, true)
    ∧ mergeStepRev (prev :: rest) cur = (prev.dropLast ++ cur) :: rest
    ∧ mergeParagraphs [("...transfor-".data), ("mation continues...".data)]
        = [("...transformation continues...".data)] := by
  obtain ⟨c, cs, hcur, hlow⟩ := h2
  subst hcur
  have hm : merge_hyphenation prev (c :: cs) = (prev.dropLast, c :: cs, true) := by
    unfold merge_hyphenation
    rw [if_pos]
    simp [h1, hlow]
  refine ⟨hm, ?_, by decide⟩
  simp [mergeStepRev, hm]

/-- C5 witness at a concrete input. -/
theorem hyphenation_merge_spec_witness :
    merge_hyphenation ("ab-".data) ("cd".data) = (("ab-".data).dropLast, ("cd".data), true)
    ∧ mergeStepRev (("ab-".data) :: []) ("cd".data) = (("ab-".data).dropLast ++ ("cd".data)) :: [] := by
  have h := hyphenation_merge_spec ("ab-".data) ("cd".data) []
    (by decide) ⟨'c', "d".data, by decide⟩
  exact ⟨h.1, h.2.1⟩

/-- C6: when no hyphenation merge applies, the merger joins `previous` and
`next` with a single space iff none of the do-not-join conditions holds
(blank previous; bullet/list marker on next; all-caps heading-like next;
figure/table/box caption prefix on next, case-insensitively; terminal
punctuation ending previous); otherwise `next` is appended as a new
output line. -/
theorem join_decision_spec (prev nxt : Str) (rest : List Str)
    (h : merge_hyphenation prev nxt = (prev, nxt, false)) :
    (should_join_with_space prev nxt = true ↔
      ¬((rstrip prev).isEmpty = true ∨ bulletStart (lstrip nxt) = true ∨
        headingLike (lstrip nxt) = true ∨ captionStart (pyLower (lstrip nxt)) = true ∨
        endsTerminal (rstrip prev) = true))
    ∧ mergeStepRev (prev :: rest) nxt =
        (if should_join_with_space prev nxt then (rstrip prev ++ ' ' :: lstrip nxt) :: rest
         else nxt :: prev :: rest) := by
  constructor
  · simp only [should_join_with_space]
    split_ifs with h1 h2 h3 h4 h5 <;> simp_all
  · simp only [mergeStepRev, h]
    simp

/-- C6 witness at a concrete input. -/
theorem join_decision_spec_witness :
    (should_join_with_space ("Hello".data) ("world".data) = true ↔
      ¬((rstrip ("Hello".data)).isEmpty = true ∨ bulletStart (lstrip ("world".data)) = true ∨
        headingLike (lstrip ("world".data)) = true ∨
        captionStart (pyLower (lstrip ("world".data))) = true ∨
        endsTerminal (rstrip ("Hello".data)) = true))
    ∧ mergeStepRev (("Hello".data) :: []) ("world".data) =
        (if should_join_with_space ("Hello".data) ("world".data) then
          (rstrip ("Hello".data) ++ ' ' :: lstrip ("world".data)) :: []
         else ("world".data) :: ("Hello".data) :: []) :=
  join_decision_spec ("Hello".data) ("world".data) [] (by decide)

/-- A line whose text is empty, as the token source can produce (for
example from a token whose text is entirely whitespace). -/
def emptyTextLine : Line := { y := 0, x0 := 0, x1 := 0, text := [], kind := Kind.left }

/-- C7 counterexample: even with the drop-headers/footers flag disabled,
the filtering stage drops a line whose text is empty, so the texts passed
on to the merger are not the full list of line texts. -/
theorem filter_bypass_cex :
    filterLines false [emptyTextLine] ≠ [emptyTextLine].map Line.text := by
  decide

/-- C7 amended: with the drop-headers/footers flag disabled, the filtering
stage drops no nonempty line: the texts passed on to the merger are
exactly the sequencer-order line texts with empty texts removed. -/
theorem filter_bypass_amended (ordered : List Line) :
    filterLines false ordered = (ordered.map Line.text).filter (fun t => !t.isEmpty) := by
  induction ordered with
  | nil => rfl
  | cons ln rest ih =>
    simp only [filterLines, List.map_cons, List.filter_cons]
    by_cases hemp : ln.text.isEmpty <;> simp [hemp, ih]

/-! ### Lemmas about row grouping and token conservation -/

theorem groupRowsGo_flatten (y_tol : ℚ) (ws : List Token) : ∀ (y : ℚ) (cur : List Token),
    (groupRowsGo y_tol y cur ws).flatten = cur ++ ws := by
  induction ws with
  | nil =>
    intro y cur
    cases cur <;> simp [groupRowsGo]
  | cons w ws ih =>
    intro y cur
    simp only [groupRowsGo]
    split <;> simp [ih]

theorem groupRows_flatten (y_tol : ℚ) (ws : List Token) :
    (groupRows y_tol ws).flatten = ws := by
  cases ws with
  | nil => rfl
  | cons w ws' => simpa using groupRowsGo_flatten y_tol (w :: ws') w.top []

theorem rows_split_perm (rows : List (List Token)) :
    List.Perm ((rows.map (fun row => split_by_gutter_gap (sortByX0 row) 25)).flatten).flatten
      rows.flatten := by
  induction rows with
  | nil => rfl
  | cons r rows ih =>
    simp only [List.map_cons, List.flatten_cons, List.flatten_append]
    have h1 : List.Perm (split_by_gutter_gap (sortByX0 r) 25).flatten r := by
      rw [split_by_gutter_gap_flatten]
      exact List.mergeSort_perm r tokenLEx
    exact h1.append ih

theorem pageSegments_flatten_perm (words : List Token) (y_tol : ℚ) :
    List.Perm (pageSegments words y_tol).flatten words := by
  unfold pageSegments
  split
  · rename_i h
    simp only [List.isEmpty_iff] at h
    simp [h]
  · have h2 := rows_split_perm (groupRows y_tol (sortByTopX0 words))
    rw [groupRows_flatten] at h2
    exact h2.trans (List.mergeSort_perm words tokenLE)

/-- C3: token conservation: the multiset of tokens across all segments
(one `Line` is built per segment) equals the input multiset — every token
ends up in exactly one line, none lost, none duplicated; and for every row
the concatenation of the gutter-splitter's segments is the row itself. -/
theorem token_conservation (words : List Token) (y_tol : ℚ) :
    (↑((pageSegments words y_tol).flatten) : Multiset Token) = ↑words
    ∧ (words_to_lines words y_tol).length = (pageSegments words y_tol).length
    ∧ (∀ (row : List Token) (g : ℚ), (split_by_gutter_gap row g).flatten = row) := by
  refine ⟨?_, by simp [words_to_lines], fun row g => split_by_gutter_gap_flatten row g⟩
  exact Multiset.coe_eq_coe.mpr (pageSegments_flatten_perm words y_tol)

/-- C9: `extract_pdf` performs no configuration validation before its page
loop: the first page is fully processed and its record emitted regardless
of anything that follows, so an empty first page always yields a record.
(In the source, an invalid tolerance value therefore surfaces only once it
is first compared against a coordinate — on the first page that has words —
after the records of earlier word-less pages were already written.) -/
theorem no_config_validation (p : PageInput) (rest : List PageInput) (y_tol : ℚ)
    (drop : Bool) (h : p.words = []) :
    extractPages (p :: rest) none y_tol drop
      = ({ page_number := p.page_number, width := p.width, height := p.height,
           text := [], line_count := 0 } : PageRecord)
        :: extractPages rest none y_tol drop := by
  simp [extractPages, h, reconstruct_empty_aux]

/-- C9 witness at a concrete input. -/
theorem no_config_validation_witness :
    extractPages [{ page_number := 1, width := 600, height := 800, words := [] }] none 3 true
      = ({ page_number := 1, width := 600, height := 800, text := [], line_count := 0 } : PageRecord)
        :: extractPages [] none 3 true :=
  no_config_validation { page_number := 1, width := 600, height := 800, words := [] } [] 3 true rfl

/-! ### Lemmas about stripping and normalized text -/

theorem dropWhile_head_not {α : Type} (p : α → Bool) (l : List α) :
    ∀ c ∈ (l.dropWhile p).head?, p c = false := by
  induction l with
  | nil => simp
  | cons c l ih =>
    intro d hd
    rw [List.dropWhile_cons] at hd
    split at hd
    · exact ih d hd
    · simp at hd
      subst hd
      rename_i hc
      simpa using hc

theorem dropWhile_getLast?_eq {α : Type} (p : α → Bool) (l : List α)
    (h : l.dropWhile p ≠ []) : (l.dropWhile p).getLast? = l.getLast? := by
  induction l with
  | nil => simp at h
  | cons c l ih =>
    rw [List.dropWhile_cons] at h ⊢
    split
    · rename_i hc
      rw [if_pos hc] at h
      cases l with
      | nil => simp [List.dropWhile] at h
      | cons x xs => rw [ih h, List.getLast?_cons_cons]
    · rfl

/-- A nonempty string with no leading and no trailing whitespace: the shape
of every nonempty `norm_space` output. -/
def TrimmedNE (s : Str) : Prop :=
  s ≠ [] ∧ (∀ c ∈ s.head?, pySpace c = false) ∧ (∀ c ∈ s.getLast?, pySpace c = false)

theorem pstrip_trimmed (s : Str) : pstrip s = [] ∨ TrimmedNE (pstrip s) := by
  by_cases h : pstrip s = []
  · exact Or.inl h
  · refine Or.inr ⟨h, ?_, ?_⟩
    · intro c hc
      unfold pstrip rstrip at hc
      rw [List.head?_reverse] at hc
      rw [dropWhile_getLast?_eq] at hc
      · rw [List.getLast?_reverse] at hc
        exact dropWhile_head_not pySpace s c hc
      · intro hnil
        apply h
        unfold pstrip rstrip
        rw [hnil]
        rfl
    · intro c hc
      unfold pstrip rstrip at hc
      rw [List.getLast?_reverse] at hc
      exact dropWhile_head_not pySpace (lstrip s).reverse c hc

theorem norm_space_trimmed (s : Str) :
    norm_space s = [] ∨ TrimmedNE (norm_space s) :=
  pstrip_trimmed (collapseWs false s)

theorem lstrip_eq_self (s : Str) (h : ∀ c ∈ s.head?, pySpace c = false) :
    lstrip s = s := by
  cases s with
  | nil => rfl
  | cons c cs =>
    have hc := h c (by simp)
    simp [lstrip, List.dropWhile_cons, hc]

theorem rstrip_eq_self (s : Str) (h : ∀ c ∈ s.getLast?, pySpace c = false) :
    rstrip s = s := by
  unfold rstrip
  have h2 : s.reverse.dropWhile pySpace = s.reverse := by
    cases hr : s.reverse with
    | nil => rfl
    | cons c cs =>
      have hc : s.getLast? = some c := by
        rw [← List.head?_reverse, hr]
        rfl
      have := h c hc
      simp [List.dropWhile_cons, this]
  rw [h2, List.reverse_reverse]

theorem pstrip_eq_self (s : Str) (h1 : ∀ c ∈ s.head?, pySpace c = false)
    (h2 : ∀ c ∈ s.getLast?, pySpace c = false) : pstrip s = s := by
  unfold pstrip
  rw [lstrip_eq_self s h1, rstrip_eq_self s h2]

theorem head?_dropLast {α : Type} (l : List α) (c : α)
    (h : l.dropLast.head? = some c) : l.head? = some c := by
  cases l with
  | nil => simp at h
  | cons x xs =>
    cases xs with
    | nil => simp at h
    | cons y ys => simpa using h

theorem merge_hyphenation_cases (prev cur : Str) :
    merge_hyphenation prev cur = (prev, cur, false)
    ∨ (merge_hyphenation prev cur = (prev.dropLast, cur, true) ∧ cur ≠ []) := by
  unfold merge_hyphenation
  split
  · rename_i hc
    refine Or.inr ⟨rfl, ?_⟩
    cases cur with
    | nil => simp at hc
    | cons c cs => simp
  · exact Or.inl rfl

theorem trimmed_append_hyphen (prev cur : Str)
    (hprev : TrimmedNE prev) (hcur : TrimmedNE cur) :
    TrimmedNE (prev.dropLast ++ cur) := by
  obtain ⟨hne, hh, hl⟩ := hcur
  refine ⟨by simp [hne], ?_, ?_⟩
  · intro c hc
    cases hd : prev.dropLast with
    | nil => rw [hd] at hc; simp at hc; exact hh c hc
    | cons x xs =>
      rw [hd, List.cons_append] at hc
      simp only [Option.mem_def, List.head?_cons, Option.some.injEq] at hc
      subst hc
      exact hprev.2.1 x (head?_dropLast prev x (by rw [hd]; rfl))
  · intro c hc
    rw [List.getLast?_append_of_ne_nil _ hne] at hc
    exact hl c hc

theorem trimmed_append_space (prev cur : Str)
    (hprev : TrimmedNE prev) (hcur : TrimmedNE cur) :
    TrimmedNE (prev ++ ' ' :: cur) := by
  refine ⟨by simp, ?_, ?_⟩
  · intro c hc
    cases hp : prev with
    | nil => exact absurd hp hprev.1
    | cons x xs =>
      rw [hp] at hc
      simp at hc
      subst hc
      apply hprev.2.1
      rw [hp]
      rfl
  · intro c hc
    rw [List.getLast?_append_of_ne_nil _ (by simp)] at hc
    cases hq : cur with
    | nil => exact absurd hq hcur.1
    | cons y ys =>
      rw [hq, List.getLast?_cons_cons] at hc
      apply hcur.2.2
      rw [hq]
      exact hc

theorem mergeStepRev_trimmed (out : List Str) (cur : Str)
    (hout : ∀ s ∈ out, TrimmedNE s) (hcur : TrimmedNE cur) :
    ∀ s ∈ mergeStepRev out cur, TrimmedNE s := by
  cases out with
  | nil =>
    intro s hs
    simp [mergeStepRev] at hs
    subst hs
    exact hcur
  | cons prev rest =>
    have hprev : TrimmedNE prev := hout prev (by simp)
    have hrest : ∀ s ∈ rest, TrimmedNE s := fun s hs => hout s (by simp [hs])
    intro s hs
    simp only [mergeStepRev] at hs
    rcases merge_hyphenation_cases prev cur with hm | ⟨hm, _⟩
    · rw [hm] at hs
      simp only [Bool.false_eq_true, if_false] at hs
      split at hs
      · rw [rstrip_eq_self prev hprev.2.2, lstrip_eq_self cur hcur.2.1] at hs
        rcases List.mem_cons.mp hs with h | h
        · subst h
          exact trimmed_append_space prev cur hprev hcur
        · exact hrest s h
      · rcases List.mem_cons.mp hs with h | h
        · subst h
          exact hcur
        · exact hout s h
    · rw [hm] at hs
      simp only [if_true] at hs
      rcases List.mem_cons.mp hs with h | h
      · subst h
        exact trimmed_append_hyphen prev cur hprev hcur
      · exact hrest s h

theorem foldl_mergeStepRev_trimmed (l : List Str) : ∀ (acc : List Str),
    (∀ s ∈ acc, TrimmedNE s) → (∀ s ∈ l, TrimmedNE s) →
    ∀ s ∈ l.foldl mergeStepRev acc, TrimmedNE s := by
  induction l with
  | nil =>
    intro acc hacc _ s hs
    exact hacc s hs
  | cons x l ih =>
    intro acc hacc hl s hs
    exact ih (mergeStepRev acc x)
      (mergeStepRev_trimmed acc x hacc (hl x (by simp)))
      (fun t ht => hl t (by simp [ht])) s hs

theorem mergeParagraphs_trimmed (l : List Str) (hl : ∀ s ∈ l, TrimmedNE s) :
    ∀ s ∈ mergeParagraphs l, TrimmedNE s := by
  intro s hs
  unfold mergeParagraphs at hs
  rw [List.mem_reverse] at hs
  exact foldl_mergeStepRev_trimmed l [] (by simp) hl s hs

theorem filterLines_mem (drop : Bool) (l : List Line) :
    ∀ s ∈ filterLines drop l, s ≠ [] ∧ ∃ ln ∈ l, s = ln.text := by
  induction l with
  | nil => simp [filterLines]
  | cons ln rest ih =>
    intro s hs
    simp only [filterLines] at hs
    split at hs
    · obtain ⟨h1, ln', h2, h3⟩ := ih s hs
      exact ⟨h1, ln', by simp [h2], h3⟩
    · split at hs
      · obtain ⟨h1, ln', h2, h3⟩ := ih s hs
        exact ⟨h1, ln', by simp [h2], h3⟩
      · rcases List.mem_cons.mp hs with h | h
        · subst h
          rename_i hne _
          refine ⟨?_, ln, by simp, rfl⟩
          simpa [List.isEmpty_iff] using hne
        · obtain ⟨h1, ln', h2, h3⟩ := ih s h
          exact ⟨h1, ln', by simp [h2], h3⟩

theorem sequenceLines_mem (l : List Line) : ∀ ln ∈ sequenceLines l, ln ∈ l := by
  intro ln hln
  simp only [sequenceLines, List.mem_append, List.mem_mergeSort] at hln
  rcases hln with (h | h) | h <;> exact (List.mem_filter.mp h).1

theorem classify_columns_text (l : List Line) (w r : ℚ) :
    ∀ ln ∈ classify_columns l w r, ∃ ln0 ∈ l, ln.text = ln0.text := by
  intro ln hln
  simp only [classify_columns, List.mem_map] at hln
  obtain ⟨ln0, h0, rfl⟩ := hln
  refine ⟨ln0, h0, ?_⟩
  unfold classifyLine
  split_ifs <;> rfl

theorem words_to_lines_text (words : List Token) (y_tol : ℚ) :
    ∀ ln ∈ words_to_lines words y_tol, ∃ x, ln.text = norm_space x := by
  intro ln hln
  simp only [words_to_lines, List.mem_map] at hln
  obtain ⟨seg, _, rfl⟩ := hln
  exact ⟨_, rfl⟩

theorem intercalate_eq_head_append (sep p : Str) (rest : List Str) :
    ∃ t, List.intercalate sep (p :: rest) = p ++ t := by
  cases rest with
  | nil => exact ⟨[], by simp [List.intercalate]⟩
  | cons q rest' =>
    refine ⟨sep ++ List.intercalate sep (q :: rest'), ?_⟩
    simp [List.intercalate, List.intersperse]

theorem intercalate_head?_mem (sep : Str) (paras : List Str)
    (hne : ∀ s ∈ paras, s ≠ []) :
    ∀ c ∈ (List.intercalate sep paras).head?, ∃ s ∈ paras, s.head? = some c := by
  cases paras with
  | nil => simp [List.intercalate]
  | cons p rest =>
    intro c hc
    obtain ⟨t, ht⟩ := intercalate_eq_head_append sep p rest
    rw [ht] at hc
    cases hp : p with
    | nil => exact absurd hp (hne p (by simp))
    | cons a as =>
      rw [hp, List.cons_append] at hc
      simp only [Option.mem_def, List.head?_cons, Option.some.injEq] at hc
      subst hc
      exact ⟨a :: as, by rw [← hp]; simp, rfl⟩

theorem intercalate_getLast?_mem (sep : Str) (paras : List Str)
    (hne : ∀ s ∈ paras, s ≠ []) :
    ∀ c ∈ (List.intercalate sep paras).getLast?, ∃ s ∈ paras, s.getLast? = some c := by
  induction paras with
  | nil => simp [List.intercalate]
  | cons p rest ih =>
    cases rest with
    | nil =>
      intro c hc
      refine ⟨p, by simp, ?_⟩
      simpa [List.intercalate] using hc
    | cons q rest' =>
      intro c hc
      have hsplit : List.intercalate sep (p :: q :: rest')
          = (p ++ sep) ++ List.intercalate sep (q :: rest') := by
        simp [List.intercalate, List.intersperse]
      rw [hsplit] at hc
      have hq : List.intercalate sep (q :: rest') ≠ [] := by
        obtain ⟨t, ht⟩ := intercalate_eq_head_append sep q rest'
        rw [ht]
        have := hne q (by simp)
        intro hh
        exact this (List.append_eq_nil.mp hh).1
      rw [List.getLast?_append_of_ne_nil _ hq] at hc
      obtain ⟨s, hs, hsl⟩ := ih (fun s hs => hne s (by simp [List.mem_cons.mp hs])) c hc
      exact ⟨s, by simp [List.mem_cons.mp hs], hsl⟩

theorem intercalate_pstrip_eq (paras : List Str)
    (h : ∀ s ∈ paras, TrimmedNE s) :
    pstrip (List.intercalate (['\n']) paras) = List.intercalate (['\n']) paras := by
  apply pstrip_eq_self
  · intro c hc
    obtain ⟨s, hs, hsh⟩ := intercalate_head?_mem (['\n']) paras (fun s hs => (h s hs).1) c hc
    exact (h s hs).2.1 c hsh
  · intro c hc
    obtain ⟨s, hs, hsl⟩ := intercalate_getLast?_mem (['\n']) paras (fun s hs => (h s hs).1) c hc
    exact (h s hs).2.2 c hsl

/-- C10: a page record's `line_count` equals the number of paragraph
strings remaining after filtering and paragraph merging — not the number
of lines built from the page's tokens — and its `text` is exactly the
newline-join of those merged strings (the final strip in the source is a
no-op: every merged paragraph is nonempty with no leading or trailing
whitespace). -/
theorem line_count_semantics (pn : ℕ) (w h : ℚ) (words : List Token)
    (y_tol : ℚ) (drop : Bool) :
    (reconstruct_page_text pn w h words y_tol drop).line_count
      = (mergeParagraphs (filterLines drop (sequenceLines
          (classify_columns (words_to_lines words y_tol) w (1 / 2))))).length
    ∧ (reconstruct_page_text pn w h words y_tol drop).text
      = List.intercalate (['\n']) (mergeParagraphs (filterLines drop (sequenceLines
          (classify_columns (words_to_lines words y_tol) w (1 / 2))))) := by
  constructor
  · rfl
  · show pstrip _ = _
    apply intercalate_pstrip_eq
    apply mergeParagraphs_trimmed
    intro s hs
    obtain ⟨hne, ln, hln, rfl⟩ := filterLines_mem drop _ s hs
    have h2 := sequenceLines_mem _ ln hln
    obtain ⟨ln0, h0, htext⟩ := classify_columns_text _ w (1 / 2) ln h2
    obtain ⟨x, hx⟩ := words_to_lines_text words y_tol ln0 h0
    rw [htext, hx]
    rcases norm_space_trimmed x with hcase | hcase
    · rw [htext, hx] at hne
      exact absurd hcase hne
    · exact hcase

/-! ### Lemmas about the reading-order sequencer -/

theorem lineYle_trans : ∀ (a b c : Line), lineYle a b → lineYle b c → lineYle a c := by
  intro a b c hab hbc
  simp only [lineYle, decide_eq_true_eq] at *
  exact le_trans hab hbc

theorem lineYle_total : ∀ (a b : Line), lineYle a b || lineYle b a := by
  intro a b
  simp only [lineYle]
  rcases le_total a.y b.y with h | h <;> simp [h]

/-- One kind bucket of the sequencer. -/
def bucket (k : Kind) (l : List Line) : List Line :=
  List.mergeSort (l.filter (fun ln => ln.kind == k)) lineYle

theorem sequenceLines_eq_buckets (l : List Line) :
    sequenceLines l = bucket Kind.full l ++ bucket Kind.left l ++ bucket Kind.right l := rfl

theorem bucket_kind (k : Kind) (l : List Line) (a : Line) (h : a ∈ bucket k l) :
    a.kind = k := by
  unfold bucket at h
  rw [List.mem_mergeSort] at h
  simpa using (List.mem_filter.mp h).2

theorem bucket_pairwise (k : Kind) (l : List Line) :
    (bucket k l).Pairwise (fun a b => a.kind = b.kind ∧ a.y ≤ b.y) := by
  have hs := List.sorted_mergeSort lineYle_trans lineYle_total
    (l.filter (fun ln => ln.kind == k))
  refine List.Pairwise.imp_of_mem ?_ hs
  intro a b ha hb hab
  refine ⟨?_, by simpa [lineYle] using hab⟩
  rw [bucket_kind k l a ha, bucket_kind k l b hb]

theorem sequence_count (l : List Line) (hk : ∀ ln ∈ l, ln.kind ≠ Kind.single)
    (a : Line) : (sequenceLines l).count a = l.count a := by
  rw [sequenceLines_eq_buckets, List.count_append, List.count_append]
  have hb : ∀ k : Kind, (bucket k l).count a = (l.filter (fun ln => ln.kind == k)).count a :=
    fun k => (List.mergeSort_perm _ lineYle).count_eq a
  rw [hb Kind.full, hb Kind.left, hb Kind.right]
  have hzero : ∀ k : Kind, a.kind ≠ k → (l.filter (fun ln => ln.kind == k)).count a = 0 := by
    intro k hne
    rw [List.count_eq_zero]
    intro hmem
    exact hne (by simpa using (List.mem_filter.mp hmem).2)
  have hsame : ∀ k : Kind, a.kind = k → (l.filter (fun ln => ln.kind == k)).count a = l.count a := by
    intro k heq
    exact List.count_filter (by simpa using heq)
  cases hkind : a.kind with
  | single =>
    rw [hzero Kind.full (by simp [hkind]), hzero Kind.left (by simp [hkind]),
        hzero Kind.right (by simp [hkind])]
    have : a ∉ l := fun hmem => hk a hmem hkind
    rw [List.count_eq_zero.mpr this]
  | full =>
    rw [hsame Kind.full hkind, hzero Kind.left (by simp [hkind]),
        hzero Kind.right (by simp [hkind])]
    omega
  | left =>
    rw [hzero Kind.full (by simp [hkind]), hsame Kind.left hkind,
        hzero Kind.right (by simp [hkind])]
    omega
  | right =>
    rw [hzero Kind.full (by simp [hkind]), hzero Kind.left (by simp [hkind]),
        hsame Kind.right hkind]
    omega

theorem sequence_pairwise (l : List Line) :
    (sequenceLines l).Pairwise
      (fun a b => kindRank a.kind < kindRank b.kind ∨ (a.kind = b.kind ∧ a.y ≤ b.y)) := by
  rw [sequenceLines_eq_buckets]
  rw [List.pairwise_append]
  refine ⟨?_, (bucket_pairwise Kind.right l).imp (fun h => Or.inr h), ?_⟩
  · rw [List.pairwise_append]
    refine ⟨(bucket_pairwise Kind.full l).imp (fun h => Or.inr h),
            (bucket_pairwise Kind.left l).imp (fun h => Or.inr h), ?_⟩
    intro a ha b hb
    left
    rw [bucket_kind _ _ a ha, bucket_kind _ _ b hb]
    decide
  · intro a ha b hb
    left
    rcases List.mem_append.mp ha with h | h
    · rw [bucket_kind _ _ a h, bucket_kind _ _ b hb]
      decide
    · rw [bucket_kind _ _ a h, bucket_kind _ _ b hb]
      decide

theorem mergeSort_filter_stable (l : List Line) (p : Line → Bool)
    (hp : ∀ a b, p a = true → p b = true → lineYle a b = true) :
    (List.mergeSort l lineYle).filter p = l.filter p := by
  have hc : (l.filter p).Pairwise (fun a b => lineYle a b = true) := by
    rw [List.pairwise_iff_forall_sublist]
    intro a b hab
    have ha : a ∈ l.filter p := hab.subset (by simp)
    have hb : b ∈ l.filter p := hab.subset (by simp)
    exact hp a b (List.mem_filter.mp ha).2 (List.mem_filter.mp hb).2
  have hsub : List.Sublist (l.filter p) (List.mergeSort l lineYle) :=
    List.sublist_mergeSort lineYle_trans lineYle_total hc (List.filter_sublist l)
  have hsub2 : List.Sublist (l.filter p) ((List.mergeSort l lineYle).filter p) := by
    have h2 := hsub.filter p
    rwa [List.filter_filter, (by
      apply List.filter_congr
      intro a _
      cases p a <;> rfl : l.filter (fun a => p a && p a) = l.filter p)] at h2
  have hlen : (l.filter p).length = ((List.mergeSort l lineYle).filter p).length :=
    (((List.mergeSort_perm l lineYle).filter p).length_eq).symm
  exact (hsub2.eq_of_length hlen).symm

theorem bucket_filter_other (k k' : Kind) (hne : k' ≠ k) (l : List Line) (v : ℚ) :
    (bucket k' l).filter (fun ln => ln.kind == k && ln.y == v) = [] := by
  rw [List.filter_eq_nil_iff]
  intro a ha
  have hkv := bucket_kind k' l a ha
  simp [hkv, hne]

theorem bucket_filter_same (k : Kind) (l : List Line) (v : ℚ) :
    (bucket k l).filter (fun ln => ln.kind == k && ln.y == v)
      = l.filter (fun ln => ln.kind == k && ln.y == v) := by
  have h1 : (bucket k l).filter (fun ln => ln.kind == k && ln.y == v)
      = (l.filter (fun ln => ln.kind == k)).filter (fun ln => ln.kind == k && ln.y == v) := by
    apply mergeSort_filter_stable
    intro a b ha hb
    simp only [Bool.and_eq_true, beq_iff_eq] at ha hb
    simp [lineYle, ha.2, hb.2]
  rw [h1, List.filter_filter]
  apply List.filter_congr
  intro a _
  cases hq : (a.kind == k) <;> simp [hq]

/-- C1: the sequencer output is a permutation of its input in which every
`Full` line precedes every non-`Full` line and the buckets appear in the
order `Full`, `Left`, `Right` with ascending `y` inside each bucket
(captured by the pairwise rank/`y` order), and ties (same kind and same
`y`) keep their original encounter order (captured by filter-stability at
every kind and `y` value). -/
theorem reading_order_spec (lines : List Line)
    (hk : ∀ ln ∈ lines, ln.kind ≠ Kind.single) :
    List.Perm (sequenceLines lines) lines
    ∧ (sequenceLines lines).Pairwise
        (fun a b => kindRank a.kind < kindRank b.kind ∨ (a.kind = b.kind ∧ a.y ≤ b.y))
    ∧ ∀ (k : Kind) (v : ℚ),
        (sequenceLines lines).filter (fun ln => ln.kind == k && ln.y == v)
          = lines.filter (fun ln => ln.kind == k && ln.y == v) := by
  refine ⟨?_, sequence_pairwise lines, ?_⟩
  · exact List.perm_iff_count.mpr (sequence_count lines hk)
  · intro k v
    rw [sequenceLines_eq_buckets, List.filter_append, List.filter_append]
    cases k with
    | single =>
      rw [bucket_filter_other Kind.single Kind.full (by decide) lines v,
          bucket_filter_other Kind.single Kind.left (by decide) lines v,
          bucket_filter_other Kind.single Kind.right (by decide) lines v]
      simp only [List.append_nil, List.nil_append]
      symm
      rw [List.filter_eq_nil_iff]
      intro a ha
      have hks := hk a ha
      simp [hks]
    | full =>
      rw [bucket_filter_same Kind.full lines v,
          bucket_filter_other Kind.full Kind.left (by decide) lines v,
          bucket_filter_other Kind.full Kind.right (by decide) lines v]
      simp
    | left =>
      rw [bucket_filter_other Kind.left Kind.full (by decide) lines v,
          bucket_filter_same Kind.left lines v,
          bucket_filter_other Kind.left Kind.right (by decide) lines v]
      simp
    | right =>
      rw [bucket_filter_other Kind.right Kind.full (by decide) lines v,
          bucket_filter_other Kind.right Kind.left (by decide) lines v,
          bucket_filter_same Kind.right lines v]
      simp

/-- C1 witness at a concrete input. -/
theorem reading_order_spec_witness :
    List.Perm
      (sequenceLines
        [{ y := 5, x0 := 400, x1 := 500, text := "r".data, kind := Kind.right },
         { y := 1, x0 := 100, x1 := 500, text := "f".data, kind := Kind.full }])
      [{ y := 5, x0 := 400, x1 := 500, text := "r".data, kind := Kind.right },
       { y := 1, x0 := 100, x1 := 500, text := "f".data, kind := Kind.full }] :=
  (reading_order_spec
    [{ y := 5, x0 := 400, x1 := 500, text := "r".data, kind := Kind.right },
     { y := 1, x0 := 100, x1 := 500, text := "f".data, kind := Kind.full }]
    (by decide)).1
